import Mathlib

/-!
# Verification of the lincolnbot hybrid retrieval pipeline

Shallow embedding of the algorithmic core of `modules/rag_process.py`:
dynamic keyword weighting (`search_with_dynamic_weights_expanded`),
keyword search with snippet extraction (`find_instances_expanded_search`),
deduplication (`remove_duplicates`), the reranker adapter
(`rerank_results`), and the orchestrator's candidate-line construction
(`run_rag_process`, `all_combined_data`).

Texts are modelled as `List Char` (ASCII view of Python `str`), Python
floats as `ℚ`, Python dicts as insertion-ordered association lists with
Python's update-in-place semantics, and Python exceptions as `Option`
(`none` = the call raises).
-/

set_option linter.unusedVariables false
set_option maxRecDepth 200000

namespace LincolnBot

/-! ## Basic text model -/

/-- ASCII word character, the `\w` class used by `re`'s `\b` for ASCII text:
letters, digits, underscore. -/
def isWordChar (c : Char) : Bool :=
  ('a' ≤ c && c ≤ 'z') || ('A' ≤ c && c ≤ 'Z') || ('0' ≤ c && c ≤ '9') || c = '_'

/-- ASCII lower-casing, the ASCII fragment of Python `str.lower`. -/
def lowerChar (c : Char) : Char :=
  if 'A' ≤ c && c ≤ 'Z' then Char.ofNat (c.toNat + 32) else c

/-- `str.lower` on a whole text. -/
def lowerStr (s : List Char) : List Char := s.map lowerChar

/-- Whitespace as stripped by Python `str.strip`. -/
def isPySpace (c : Char) : Bool :=
  c = ' ' || c = '\t' || c = '\n' || c = '\r' || c = Char.ofNat 11 || c = Char.ofNat 12

/-- Python `str.strip()`. -/
def stripStr (s : List Char) : List Char :=
  ((s.dropWhile isPySpace).reverse.dropWhile isPySpace).reverse

/-- Is the character at index `i` (if any) a word character? -/
def wordCharAtPos (text : List Char) (i : Nat) : Bool :=
  match text.drop i with
  | [] => false
  | c :: _ => isWordChar c

/-- The regex `\b` word-boundary assertion at position `i` of `text`. -/
def boundaryAt (text : List Char) (i : Nat) : Bool :=
  match i with
  | 0 => wordCharAtPos text 0
  | Nat.succ j => wordCharAtPos text j != wordCharAtPos text (j + 1)

/-- Does the regex `\b<kw>\b` (with `kw` escaped, as built by
`re.escape`) match starting at position `i` of `text`? -/
def matchAt (kw text : List Char) (i : Nat) : Bool :=
  boundaryAt text i && ((text.drop i).take kw.length == kw) && boundaryAt text (i + kw.length)

/-- Left-to-right non-overlapping scan of `re.finditer`, fuelled.
After a match at `i` the scan resumes at `i + max 1 |kw|`. -/
def finditerAux (kw text : List Char) : Nat → Nat → List Nat
  | 0, _ => []
  | Nat.succ fuel, i =>
    if text.length < i then []
    else if matchAt kw text i then i :: finditerAux kw text fuel (i + max 1 kw.length)
    else finditerAux kw text fuel (i + 1)

/-- Start offsets of the matches of `re.finditer(r'\b' + re.escape(kw) + r'\b', text)`,
in text order.  `re.findall` with the same pattern yields the same matches, so its
`len` equals this list's length. -/
def finditerPos (kw text : List Char) : List Nat :=
  finditerAux kw text (text.length + 2) 0

/-- Python substring containment `pat in s`. -/
def containsSub (s pat : List Char) : Bool :=
  (List.range (s.length + 1)).any (fun i => (s.drop i).take pat.length == pat)

/-- `re.search(r'\b' + re.escape(kw) + r'\b', s)` succeeds. -/
def searchWord (kw s : List Char) : Bool :=
  (List.range (s.length + 1)).any (fun i => matchAt kw s i)

/-- Python `s.split(sep)` for a one-character separator. -/
def splitOnChar (sep : Char) : List Char → List (List Char)
  | [] => [[]]
  | c :: cs =>
    match splitOnChar sep cs with
    | [] => [[]]
    | h :: t => if c = sep then [] :: h :: t else (c :: h) :: t

/-- Python `s.replace(pat, rep)`: replace non-overlapping occurrences left to
right; fuelled recursion. -/
def replaceAllAux (pat rep : List Char) : Nat → List Char → List Char
  | 0, s => s
  | Nat.succ fuel, s =>
    match s with
    | [] => []
    | c :: cs =>
      if !pat.isEmpty && s.take pat.length == pat then
        rep ++ replaceAllAux pat rep fuel (s.drop pat.length)
      else c :: replaceAllAux pat rep fuel cs

/-- Python `s.replace(pat, rep)` (for non-empty `pat`). -/
def replaceAll (pat rep s : List Char) : List Char :=
  replaceAllAux pat rep (s.length + 1) s

/-- Python slice `l[a:b]` for clamped non-negative bounds. -/
def pySlice (l : List Char) (a b : Nat) : List Char :=
  (l.drop a).take (b - a)

/-- The `.replace("\n", " ")` applied to extracted snippets. -/
def replNl (c : Char) : Char := if c = '\n' then ' ' else c

/-- Snippet construction of `find_instances_expanded_search`:
`start_quote = max(0, pos - 300)`, `end_quote = min(len(body), pos + 300)`,
`entry['full_text'][start_quote:end_quote].replace("\n", " ")`.
Natural-number subtraction realises the `max 0` clamp. -/
def snippetAt (fullText : List Char) (pos : Nat) : List Char :=
  (pySlice fullText (pos - 300) (min fullText.length (pos + 300))).map replNl

/-! ## Python dict as insertion-ordered association list -/

/-- Python `d[k] = v`: update in place if the key exists (keeping its slot in
iteration order), otherwise append at the end. -/
def dictInsert {κ β : Type} [DecidableEq κ] (l : List (κ × β)) (k : κ) (v : β) :
    List (κ × β) :=
  if l.any (fun p => decide (p.1 = k)) then
    l.map (fun p => if p.1 = k then (k, v) else p)
  else l ++ [(k, v)]

/-- Python `d.get(k, default)`. -/
def lookupD {κ β : Type} [DecidableEq κ] (l : List (κ × β)) (k : κ) (d : β) : β :=
  match l.find? (fun p => decide (p.1 = k)) with
  | some p => p.2
  | none => d

/-- Python `max(iterable)` on numbers: `none` on the empty list (Python raises
`ValueError`), otherwise the greatest value. -/
def maxQ : List ℚ → Option ℚ
  | [] => none
  | x :: xs => some (xs.foldl (fun a b => if a < b then b else a) x)

/-- One step of Python `max(iterable, key=f)`: replace the current best only on
a strictly greater key, so the first maximal element wins. -/
def pmStep {α : Type} (f : α → ℚ) (a y : α) : α :=
  if f a < f y then y else a

/-- Python `max(iterable, key=f)`: `none` on the empty list, otherwise the
first element attaining the maximal key. -/
def pyMax {α : Type} (f : α → ℚ) : List α → Option α
  | [] => none
  | x :: xs => some (xs.foldl (pmStep f) x)

/-! ## Corpus data model -/

/-- One corpus entry of `lincoln_data`, with the fields
`find_instances_expanded_search` reads.  The Python code guards
`if 'full_text' in entry and 'source' in entry`; entries are modelled as
always carrying their fields (`summary` and `keywords` are read with
`.get(..., default)` in the source and default to empty here). -/
structure Entry where
  text_id : List Char
  source : List Char
  summary : List Char
  keywords : List (List Char)
  full_text : List Char
deriving DecidableEq

/-- A keyword-search result dictionary as appended to `instances`. -/
structure Instance where
  text_id : List Char
  source : List Char
  summary : List Char
  quote : List Char
  weighted_score : ℚ
  keyword_counts : List (List Char × Nat)
deriving DecidableEq

/-- The per-entry mutable state of the keyword loop:
`total_dynamic_weighted_score`, `keyword_counts`, `keyword_positions`. -/
structure KAcc where
  score : ℚ
  counts : List (List Char × Nat)
  positions : List (Nat × (List Char × ℚ))
deriving DecidableEq

/-- Python `' '.join(keywords)`. -/
def joinSp : List (List Char) → List Char
  | [] => []
  | [w] => w
  | w :: ws => w ++ ' ' :: joinSp ws

/-- `combined_text = entry_text_lower + ' ' + summary_lower + ' ' + keywords_lower`. -/
def combinedText (e : Entry) : List Char :=
  lowerStr e.full_text ++ ' ' :: lowerStr e.summary ++ ' ' :: lowerStr (joinSp e.keywords)

/-- The year/source filters of `find_instances_expanded_search`:
`match_source_year` passes when the year list is empty or some year string is
a substring of the lowered source; `match_source_text` passes when the text
list is empty or some stripped lowered token matches as a whole word in the
lowered source. -/
def entryMatches (yearKeywords textKeywords : List (List Char)) (e : Entry) : Bool :=
  let sourceLower := lowerStr e.source
  let textList := textKeywords.map (fun k => lowerStr (stripStr k))
  (yearKeywords.isEmpty || yearKeywords.any (fun y => containsSub sourceLower y)) &&
  (textKeywords.isEmpty || textList.any (fun k => searchWord (lowerStr k) sourceLower))

/-- The body of the outer keyword loop of `find_instances_expanded_search`
(lines 99–109) for one profile keyword `kw`: for every `finditer` match,
re-count all occurrences with `findall` (the same value each iteration), and
under `if count > 0` set `keyword_counts[keyword]`, add
`count * dynamic_weight` to the score, and record
`keyword_positions[match.start()] = (keyword, original_weight)`. -/
def scanStep (dynamicWeights : List (List Char × ℚ)) (combined : List Char)
    (acc : KAcc) (kw : List Char × ℚ) : KAcc :=
  let kwLower := lowerStr kw.1
  let ms := finditerPos kwLower combined
  let count := ms.length
  ms.foldl (fun a i =>
    let dynamicWeight := lookupD dynamicWeights kw.1 0
    if 0 < count then
      { score := a.score + (count : ℚ) * dynamicWeight,
        counts := dictInsert a.counts kw.1 count,
        positions := dictInsert a.positions i (kw.1, kw.2) }
    else a) acc

/-- The nested keyword/match loops of `find_instances_expanded_search`
(lines 99–109): fold `scanStep` over the profile keywords in dict order,
starting from zero score, empty counts, empty positions. -/
def scanKeywords (dynamicWeights origWeights : List (List Char × ℚ))
    (combined : List Char) : KAcc :=
  origWeights.foldl (scanStep dynamicWeights combined)
    { score := 0, counts := [], positions := [] }

/-- Lines 111–125: if any position was recorded, centre the snippet on
`max(keyword_positions.items(), key=lambda x: x[1][1])[0]` and build the
result dictionary; otherwise produce nothing. -/
def processEntry (dynamicWeights origWeights : List (List Char × ℚ)) (e : Entry) :
    Option Instance :=
  let acc := scanKeywords dynamicWeights origWeights (combinedText e)
  match pyMax (fun p => p.2.2) acc.positions with
  | none => none
  | some top =>
    some { text_id := e.text_id, source := e.source, summary := e.summary,
           quote := snippetAt e.full_text top.1,
           weighted_score := acc.score, keyword_counts := acc.counts }

/-- The unsorted `instances` list, in corpus order. -/
def keywordCandidates (dynamicWeights origWeights : List (List Char × ℚ))
    (data : List Entry) (yearKeywords textKeywords : List (List Char)) : List Instance :=
  data.filterMap (fun e =>
    if entryMatches yearKeywords textKeywords e then
      processEntry dynamicWeights origWeights e
    else none)

/-- Stable descending insertion: a new element goes after every element with a
greater-or-equal score, matching the stability of Python `list.sort` with
`reverse=True`. -/
def insertD (x : Instance) : List Instance → List Instance
  | [] => [x]
  | y :: ys => if x.weighted_score ≤ y.weighted_score then y :: insertD x ys
               else x :: y :: ys

/-- `instances.sort(key=lambda x: x['weighted_score'], reverse=True)`:
stable descending sort, realised by left-to-right stable insertion. -/
def sortByScoreDesc (l : List Instance) : List Instance :=
  l.foldl (fun acc x => insertD x acc) []

/-- `find_instances_expanded_search` (lines 72–127): filter, score, extract
snippets, then sort by `weighted_score` descending and return the whole
sorted list.  The `top_n` parameter is accepted but never used by the
source, which returns `instances` in full. -/
def find_instances_expanded_search (dynamicWeights origWeights : List (List Char × ℚ))
    (data : List Entry) (yearKeywords textKeywords : List (List Char)) (top_n : Nat) :
    List Instance :=
  sortByScoreDesc (keywordCandidates dynamicWeights origWeights data yearKeywords textKeywords)

/-! ## Dynamic keyword weighting -/

/-- Lines 52–53: `total_words = sum(rawFreq)` and the dict comprehension
`{term.lower(): rawFreq / total_words}` (later duplicates overwrite). -/
def relative_frequencies (terms : List (List Char × ℚ)) : List (List Char × ℚ) :=
  let totalWords := (terms.map (fun t => t.2)).sum
  terms.foldl (fun d t => dictInsert d (lowerStr t.1) (t.2 / totalWords)) []

/-- `relative_frequencies.get(keyword.lower(), 1)`: the corpus relative
frequency of a keyword, with unseen keywords treated as frequency 1. -/
def effectiveRelFreq (terms : List (List Char × ℚ)) (kw : List Char) : ℚ :=
  lookupD (relative_frequencies terms) (lowerStr kw) 1

/-- Line 56: `inverse_weights = {keyword: 1 / relative_frequencies.get(keyword.lower(), 1)}`. -/
def inverse_weights (userKeywords terms : List (List Char × ℚ)) : List (List Char × ℚ) :=
  userKeywords.map (fun p => (p.1, 1 / effectiveRelFreq terms p.1))

/-- Lines 59–60: `max_weight = max(inverse_weights.values())` (raises on an
empty dict, modelled as `none`) and
`normalized_weights = {k: (w / max_weight) * 10}`. -/
def normalized_weights (userKeywords terms : List (List Char × ℚ)) :
    Option (List (List Char × ℚ)) :=
  match maxQ ((inverse_weights userKeywords terms).map (fun p => p.2)) with
  | none => none
  | some m => some ((inverse_weights userKeywords terms).map (fun p => (p.1, p.2 / m * 10)))

/-- `search_with_dynamic_weights_expanded` (lines 50–70): compute dynamic
weights and run the expanded search.  `none` models the `ValueError` raised
by `max()` on an empty keyword profile. -/
def search_with_dynamic_weights_expanded (userKeywords terms : List (List Char × ℚ))
    (data : List Entry) (yearKeywords textKeywords : List (List Char))
    (top_n_results : Nat) : Option (List Instance) :=
  match normalized_weights userKeywords terms with
  | none => none
  | some nw =>
    some (find_instances_expanded_search nw userKeywords data yearKeywords textKeywords
      top_n_results)

/-! ## Deduplication and the orchestrator's candidate lines -/

/-- A candidate row as seen by `remove_duplicates` and the line builder:
the union of the keyword-result and semantic-result columns (pandas `concat`
fills the columns a row lacks; `run_rag_process` line 319–320 documents the
empty-string default for `quote`). -/
structure Row where
  text_id : List Char
  summary : List Char
  quote : List Char
  topSegment : List Char
deriving DecidableEq

/-- `drop_duplicates(subset='text_id', keep='first')`: keep a row when its
`text_id` has not been seen yet, in order. -/
def removeDuplicatesAux (seen : List (List Char)) : List Row → List Row
  | [] => []
  | r :: rs =>
    if r.text_id ∈ seen then removeDuplicatesAux seen rs
    else r :: removeDuplicatesAux (r.text_id :: seen) rs

/-- `remove_duplicates` (lines 142–145): concatenate the keyword results with
the semantic matches, then drop duplicate `text_id`s keeping the first
occurrence. -/
def remove_duplicates (searchResults semanticMatches : List Row) : List Row :=
  removeDuplicatesAux [] (searchResults ++ semanticMatches)

/-- The first row of `l` carrying identifier `i`, if any. -/
def firstWithId (l : List Row) (i : List Char) : Option Row :=
  l.find? (fun r => decide (r.text_id = i))

/-- `f"Keyword|Text ID: {row['text_id']}|Summary: {row['summary']}|{row['quote']}"`. -/
def keywordLine (r : Row) : List Char :=
  "Keyword|Text ID: ".data ++ r.text_id ++ "|Summary: ".data ++ r.summary ++ '|' :: r.quote

/-- `f"Semantic|Text ID: {row['text_id']}|Summary: {row['summary']}|{row['TopSegment']}"`. -/
def semanticLine (r : Row) : List Char :=
  "Semantic|Text ID: ".data ++ r.text_id ++ "|Summary: ".data ++ r.summary ++ '|' :: r.topSegment

/-- `all_combined_data` (lines 322–326 of `run_rag_process`): one
`Keyword`-tagged line per deduplicated row, followed by one
`Semantic`-tagged line per semantic match. -/
def all_combined_data (searchResults semanticMatches : List Row) : List (List Char) :=
  (remove_duplicates searchResults semanticMatches).map keywordLine ++
    semanticMatches.map semanticLine

/-! ## Reranker adapter -/

/-- A row of `full_reranked_results`. -/
structure RankedResult where
  rank : Nat
  searchType : List Char
  textId : List Char
  source : List Char
  summary : List Char
  keyQuote : List Char
  relevanceScore : ℚ
deriving DecidableEq

/-- `len(data_parts) >= 4` after `combined_data_text.split("|")`. -/
def isWellFormedLine (t : List Char) : Bool :=
  4 ≤ (splitOnChar '|' t).length

/-- Field extraction of `rerank_results` (lines 161–181) for one well-formed
line, with `idx` the 0-based position in the reranker's response. -/
def parseLine (lincolnDict : List (List Char × List Char)) (idx : Nat)
    (t : List Char) (score : ℚ) : RankedResult :=
  let parts := splitOnChar '|' t
  let searchType := stripStr (parts.getD 0 [])
  let textIdPart := stripStr (parts.getD 1 [])
  let textId := stripStr (replaceAll "Text #:".data [] (replaceAll "Text ID:".data [] textIdPart))
  let summary := stripStr (replaceAll "Summary:".data [] (stripStr (parts.getD 2 [])))
  let quote := stripStr (stripStr (parts.getD 3 []))
  let source := lookupD lincolnDict ("Text #: ".data ++ textId)
    "Source information not available".data
  { rank := idx + 1, searchType := searchType, textId := textId, source := source,
    summary := summary, keyQuote := quote, relevanceScore := score }

/-- The `for idx, result in enumerate(reranked_response.results)` loop:
well-formed lines become records ranked `idx + 1`; lines splitting into fewer
than 4 parts are skipped, while `idx` keeps advancing. -/
def rerankAux (lincolnDict : List (List Char × List Char)) :
    Nat → List (List Char × ℚ) → List RankedResult
  | _, [] => []
  | idx, (t, s) :: rest =>
    if isWellFormedLine t then
      parseLine lincolnDict idx t s :: rerankAux lincolnDict (idx + 1) rest
    else rerankAux lincolnDict (idx + 1) rest

/-- `rerank_results` (lines 157–182), given the external reranker's response
as a list of `(document_text, relevance_score)` pairs in the order the
reranker returned them. -/
def rerank_results (results : List (List Char × ℚ))
    (lincolnDict : List (List Char × List Char)) : List RankedResult :=
  rerankAux lincolnDict 0 results

/-- `l` is the contiguous integer sequence `1, 2, …, |l|`. -/
def contiguousFrom1 (l : List Nat) : Prop :=
  l = List.range' 1 l.length

/-- Profile keywords with at least one recorded occurrence in `combined`. -/
def matchedKeywords (origWeights : List (List Char × ℚ)) (combined : List Char) :
    List (List Char × ℚ) :=
  origWeights.filter (fun p => !(finditerPos (lowerStr p.1) combined).isEmpty)

/-- The block of position records `(i, (keyword, original_weight))` one
profile keyword contributes to `keyword_positions`, in match order. -/
def blockOf (combined : List Char) (p : List Char × ℚ) : List (Nat × (List Char × ℚ)) :=
  (finditerPos (lowerStr p.1) combined).map (fun i => (i, (p.1, p.2)))

/-- The recorded-position table as a plain concatenation of per-keyword
blocks (what `keyword_positions` equals when no two keywords collide on a
character offset). -/
def concatBlocks (combined : List Char) (G : List (List Char × ℚ)) :
    List (Nat × (List Char × ℚ)) :=
  G.flatMap (blockOf combined)

/-- A keyword's earliest match position in the combined text, paired with the
keyword and its original weight: the snippet centre the specification's
tie-break rule prescribes for that keyword. -/
def earliestRecord (combined : List Char) (p : List Char × ℚ) :
    Nat × (List Char × ℚ) :=
  ((finditerPos (lowerStr p.1) combined).headD 0, (p.1, p.2))

/-! ## Concrete test data -/

/-- A document whose body contains the keyword `emancipation` exactly twice
(the synthetic scenario of the specification's testable properties). -/
def entryEmancipation : Entry :=
  { text_id := "Text #: 1".data, source := "Speech, 1863".data, summary := "s".data,
    keywords := [], full_text := "emancipation now emancipation".data }

/-- A second document containing the keyword once. -/
def entryLetter : Entry :=
  { text_id := "Text #: 2".data, source := "Letter, 1864".data, summary := "t".data,
    keywords := [], full_text := "emancipation".data }

/-- The profile used by the concrete keyword-search scenarios: one keyword
with dynamic (and original) weight 5. -/
def profileEman : List (List Char × ℚ) := [("emancipation".data, 5)]

/-- A 301-character body: `x-ray` matches at offset 0, `x` also matches at
offset 0, `zeb` matches at offset 6, and the filler makes the body long
enough that snippets centred at 0 and at 6 differ. -/
def bodyC10 : List Char := "x-ray zeb ".data ++ List.replicate 291 'f'

/-- The document built over `bodyC10`. -/
def entryC10 : Entry :=
  { text_id := "Text #: 3".data, source := "src".data, summary := [], keywords := [],
    full_text := bodyC10 }

/-- A profile in which the keywords `x-ray` and `x` match at the same
character offset: `x-ray` (weight 5) comes first, `x` (weight 3) overwrites
its position record, and `zeb` (weight 5) matches later. -/
def owC10 : List (List Char × ℚ) := [("x-ray".data, 5), ("x".data, 3), ("zeb".data, 5)]

/-- A two-keyword profile whose keywords match `entryEmancipation` at
disjoint character offsets. -/
def profileEmanNow : List (List Char × ℚ) :=
  [("emancipation".data, 5), ("now".data, 2)]

/-- A keyword-search row with identifier `A`. -/
def rowA : Row := { text_id := "A".data, summary := "sa".data, quote := "qa".data, topSegment := [] }

/-- A semantic-search row with identifier `B`. -/
def rowB : Row := { text_id := "B".data, summary := "sb".data, quote := [], topSegment := "tb".data }

/-- A keyword-search row that shares identifier `B` with `rowB`. -/
def rowBkw : Row := { text_id := "B".data, summary := "sk".data, quote := "qk".data, topSegment := [] }

/-- A semantic-search row with identifier `C`. -/
def rowC : Row := { text_id := "C".data, summary := "sc".data, quote := [], topSegment := "tc".data }

/-- A well-formed reranker line (4 pipe-delimited fields). -/
def goodLineA : List Char := "Keyword|Text ID: 1|Summary: s|quote one".data

/-- A malformed reranker line (fewer than 4 pipe-delimited fields). -/
def badLineB : List Char := "garbage line".data

/-- Another well-formed reranker line. -/
def goodLineC : List Char := "Semantic|Text ID: 2|Summary: t|quote two".data

/-- A two-term corpus frequency table: `rare` occurs once, `common` nine
times. -/
def termsW : List (List Char × ℚ) := [("rare".data, 1), ("common".data, 9)]

/-- A keyword profile over `termsW` including a term absent from the table. -/
def profileW : List (List Char × ℚ) :=
  [("rare".data, 5), ("common".data, 3), ("unseen".data, 1)]

end LincolnBot

namespace LincolnBot

/-! ## Properties of the stable descending sort -/

theorem insertD_perm (x : Instance) (l : List Instance) :
    (insertD x l).Perm (x :: l) := by
  induction l with
  | nil => exact List.Perm.refl _
  | cons y ys ih =>
    unfold insertD
    by_cases h : x.weighted_score ≤ y.weighted_score
    · simpa [h] using (ih.cons y).trans (List.Perm.swap x y ys)
    · simp [h]

theorem mem_insertD {z x : Instance} {l : List Instance} :
    z ∈ insertD x l ↔ z = x ∨ z ∈ l := by
  rw [(insertD_perm x l).mem_iff, List.mem_cons]

theorem insertD_sorted {x : Instance} {l : List Instance}
    (h : l.Pairwise (fun a b => b.weighted_score ≤ a.weighted_score)) :
    (insertD x l).Pairwise (fun a b => b.weighted_score ≤ a.weighted_score) := by
  induction l with
  | nil => simp [insertD]
  | cons y ys ih =>
    rw [List.pairwise_cons] at h
    unfold insertD
    by_cases hle : x.weighted_score ≤ y.weighted_score
    · simp only [hle, if_true]
      rw [List.pairwise_cons]
      refine ⟨fun z hz => ?_, ih h.2⟩
      rcases mem_insertD.mp hz with rfl | hz
      · exact hle
      · exact h.1 z hz
    · simp only [hle, if_false]
      rw [List.pairwise_cons]
      refine ⟨fun z hz => ?_, List.pairwise_cons.mpr h⟩
      rcases List.mem_cons.mp hz with rfl | hz
      · exact le_of_lt (lt_of_not_le hle)
      · exact le_trans (h.1 z hz) (le_of_lt (lt_of_not_le hle))

theorem foldl_insertD_perm (l : List Instance) :
    ∀ acc : List Instance, (l.foldl (fun a x => insertD x a) acc).Perm (acc ++ l) := by
  induction l with
  | nil => intro acc; simp
  | cons x xs ih =>
    intro acc
    have h1 : ((x :: xs).foldl (fun a x => insertD x a) acc)
        = xs.foldl (fun a x => insertD x a) (insertD x acc) := rfl
    rw [h1]
    refine (ih (insertD x acc)).trans ?_
    refine ((insertD_perm x acc).append_right xs).trans ?_
    exact List.perm_middle.symm

theorem foldl_insertD_sorted (l : List Instance) :
    ∀ acc : List Instance,
      acc.Pairwise (fun a b => b.weighted_score ≤ a.weighted_score) →
      (l.foldl (fun a x => insertD x a) acc).Pairwise
        (fun a b => b.weighted_score ≤ a.weighted_score) := by
  induction l with
  | nil => intro acc h; exact h
  | cons x xs ih => intro acc h; exact ih _ (insertD_sorted h)

theorem filter_insertD (c : ℚ) (x : Instance) {l : List Instance}
    (hl : l.Pairwise (fun a b => b.weighted_score ≤ a.weighted_score)) :
    (insertD x l).filter (fun z => decide (z.weighted_score = c))
      = l.filter (fun z => decide (z.weighted_score = c))
        ++ (if x.weighted_score = c then [x] else []) := by
  induction l with
  | nil =>
    by_cases hx : x.weighted_score = c <;> simp [insertD, hx]
  | cons y ys ih =>
    rw [List.pairwise_cons] at hl
    unfold insertD
    by_cases hle : x.weighted_score ≤ y.weighted_score
    · simp only [hle, if_true]
      by_cases hy : y.weighted_score = c <;>
        simp [List.filter_cons, hy, ih hl.2, List.cons_append]
    · simp only [hle, if_false]
      have hylt : y.weighted_score < x.weighted_score := lt_of_not_le hle
      by_cases hx : x.weighted_score = c
      · have hnil : (y :: ys).filter (fun z => decide (z.weighted_score = c)) = [] := by
          rw [List.filter_eq_nil_iff]
          intro z hz
          rcases List.mem_cons.mp hz with rfl | hz
          · simp only [decide_eq_true_eq]
            exact fun h => absurd (h ▸ hylt) (by rw [hx]; exact lt_irrefl c)
          · simp only [decide_eq_true_eq]
            intro h
            have := lt_of_le_of_lt (hl.1 z hz) hylt
            rw [h, hx] at this
            exact lt_irrefl c this
        simp [List.filter_cons, hx, hnil]
      · simp [List.filter_cons, hx]

theorem filter_foldl_insertD (c : ℚ) (l : List Instance) :
    ∀ acc : List Instance,
      acc.Pairwise (fun a b => b.weighted_score ≤ a.weighted_score) →
      (l.foldl (fun a x => insertD x a) acc).filter (fun z => decide (z.weighted_score = c))
        = acc.filter (fun z => decide (z.weighted_score = c))
          ++ l.filter (fun z => decide (z.weighted_score = c)) := by
  induction l with
  | nil => intro acc h; simp
  | cons x xs ih =>
    intro acc h
    have step : ((x :: xs).foldl (fun a x => insertD x a) acc)
        = xs.foldl (fun a x => insertD x a) (insertD x acc) := rfl
    rw [step, ih _ (insertD_sorted h), filter_insertD c x h, List.filter_cons,
      List.append_assoc]
    by_cases hx : x.weighted_score = c <;> simp [hx]

theorem sortByScoreDesc_sorted (l : List Instance) :
    (sortByScoreDesc l).Pairwise (fun a b => b.weighted_score ≤ a.weighted_score) :=
  foldl_insertD_sorted l [] (List.Pairwise.nil)

theorem sortByScoreDesc_perm (l : List Instance) : (sortByScoreDesc l).Perm l :=
  foldl_insertD_perm l []

theorem sortByScoreDesc_filter (c : ℚ) (l : List Instance) :
    (sortByScoreDesc l).filter (fun z => decide (z.weighted_score = c))
      = l.filter (fun z => decide (z.weighted_score = c)) :=
  filter_foldl_insertD c l [] (List.Pairwise.nil)

end LincolnBot

namespace LincolnBot

/-! ## Claims C1, C2: scoring and ordering of keyword search -/

/-- C1.  The specification claims `weighted_score = Σ (count × dynamic_weight)`,
with score 10 for a document containing one keyword twice at dynamic weight 5.
The source accumulates `count * dynamic_weight` once **per occurrence** (the
`+=` sits inside the `finditer` loop), so the document scores
`count² × weight = 20`: the code contradicts the specified contract. -/
theorem C1_score_is_count_squared_times_weight :
    (find_instances_expanded_search profileEman profileEman [entryEmancipation] [] [] 5).map
        (fun r => (r.weighted_score, r.keyword_counts))
      = [(20, [("emancipation".data, 2)])] := by
  with_unfolding_all decide

/-- C2 counterexample.  `find_instances_expanded_search` never uses its
`top_n` parameter: with `top_n = 1` and two matching documents it still
returns both, refuting "returns at most top_n of them". -/
theorem C2_top_n_ignored_counterexample :
    (find_instances_expanded_search profileEman profileEman
        [entryEmancipation, entryLetter] [] [] 1).length = 2 := by
  with_unfolding_all decide

/-- C2 amended.  Keyword search returns **all** matched documents (the
`top_n` parameter is ignored), sorted by `weighted_score` descending, with
ties broken stably by corpus order: the output is a permutation of the
corpus-ordered candidate list, pairwise non-increasing in score, and for
every score value the equal-score documents appear exactly in their corpus
order. -/
theorem C2_sorted_stable_returns_all (dyn orig : List (List Char × ℚ))
    (data : List Entry) (yearKeywords textKeywords : List (List Char)) (top_n : Nat) :
    (find_instances_expanded_search dyn orig data yearKeywords textKeywords top_n).Pairwise
        (fun a b => b.weighted_score ≤ a.weighted_score)
    ∧ (find_instances_expanded_search dyn orig data yearKeywords textKeywords top_n).Perm
        (keywordCandidates dyn orig data yearKeywords textKeywords)
    ∧ ∀ c : ℚ,
        (find_instances_expanded_search dyn orig data yearKeywords textKeywords top_n).filter
            (fun r => decide (r.weighted_score = c))
          = (keywordCandidates dyn orig data yearKeywords textKeywords).filter
              (fun r => decide (r.weighted_score = c)) := by
  refine ⟨sortByScoreDesc_sorted _, sortByScoreDesc_perm _, fun c => sortByScoreDesc_filter c _⟩

/-! ## Claim C8: empty keyword profile fails fast -/

/-- C8.  With an empty keyword profile, `max(inverse_weights.values())` raises
`ValueError` (modelled as `none`): the search errors out instead of returning
an empty or default result, for every corpus, filter set, and result limit. -/
theorem C8_empty_profile_errors (terms : List (List Char × ℚ)) (data : List Entry)
    (yearKeywords textKeywords : List (List Char)) (top_n_results : Nat) :
    search_with_dynamic_weights_expanded [] terms data yearKeywords textKeywords
      top_n_results = none := rfl

/-! ## Claim C9: snippet extraction bounds -/

/-- C9.  The snippet is always a window of the document body alone (a
`drop`/`take` slice of the newline-normalised body, so extraction is total and
never fails), and whenever the centring offset — measured in the combined
body + summary + tags text — is at least `len(body) + 300`, the extracted
quote is the empty string. -/
theorem C9_snippet_bounds (body : List Char) (pos : Nat) :
    (∃ a k, snippetAt body pos = ((body.map replNl).drop a).take k)
    ∧ (body.length + 300 ≤ pos → snippetAt body pos = []) := by
  constructor
  · refine ⟨pos - 300, min body.length (pos + 300) - (pos - 300), ?_⟩
    simp [snippetAt, pySlice, List.map_take, List.map_drop]
  · intro h
    have hlen : body.length ≤ pos - 300 := by omega
    simp [snippetAt, pySlice, List.drop_eq_nil_of_le hlen]

/-- C9 witness: instantiating the bound at a concrete body of length 2 and
offset 302 yields the empty quote. -/
theorem C9_snippet_witness : snippetAt "ab".data 302 = [] :=
  (C9_snippet_bounds "ab".data 302).2 (by decide)

end LincolnBot

namespace LincolnBot

/-! ## Properties of deduplication -/

theorem removeDuplicatesAux_spec (l : List Row) :
    ∀ seen : List (List Char), ∀ y ∈ removeDuplicatesAux seen l,
      y.text_id ∉ seen ∧ l.find? (fun r => decide (r.text_id = y.text_id)) = some y := by
  induction l with
  | nil => intro seen y hy; simp [removeDuplicatesAux] at hy
  | cons r rs ih =>
    intro seen y hy
    unfold removeDuplicatesAux at hy
    by_cases hmem : r.text_id ∈ seen
    · rw [if_pos hmem] at hy
      obtain ⟨h1, h2⟩ := ih seen y hy
      have hfalse : decide (r.text_id = y.text_id) = false := by
        simp only [decide_eq_false_iff_not]
        intro h
        exact h1 (h ▸ hmem)
      refine ⟨h1, ?_⟩
      rw [List.find?_cons, hfalse]
      exact h2
    · rw [if_neg hmem] at hy
      rcases List.mem_cons.mp hy with rfl | hy
      · refine ⟨hmem, ?_⟩
        rw [List.find?_cons]
        simp
      · obtain ⟨h1, h2⟩ := ih _ y hy
        have hne' : y.text_id ≠ r.text_id := by
          intro h
          exact h1 (by rw [h]; exact List.mem_cons_self _ _)
        have hfalse : decide (r.text_id = y.text_id) = false := by
          simp only [decide_eq_false_iff_not]
          exact fun h => hne' h.symm
        refine ⟨fun hc => h1 (List.mem_cons_of_mem _ hc), ?_⟩
        rw [List.find?_cons, hfalse]
        exact h2

theorem removeDuplicatesAux_nodup (l : List Row) :
    ∀ seen : List (List Char),
      ((removeDuplicatesAux seen l).map (fun r => r.text_id)).Nodup := by
  induction l with
  | nil => intro seen; simp [removeDuplicatesAux]
  | cons r rs ih =>
    intro seen
    unfold removeDuplicatesAux
    by_cases hmem : r.text_id ∈ seen
    · rw [if_pos hmem]; exact ih seen
    · rw [if_neg hmem]
      simp only [List.map_cons, List.nodup_cons]
      refine ⟨?_, ih _⟩
      intro hc
      rcases List.mem_map.mp hc with ⟨y, hy, hid⟩
      have := (removeDuplicatesAux_spec rs _ y hy).1
      exact this (by rw [hid]; exact List.mem_cons_self _ _)

theorem removeDuplicatesAux_covers (l : List Row) :
    ∀ seen : List (List Char), ∀ x ∈ l,
      x.text_id ∈ seen ∨ ∃ y ∈ removeDuplicatesAux seen l, y.text_id = x.text_id := by
  induction l with
  | nil => intro seen x hx; simp at hx
  | cons r rs ih =>
    intro seen x hx
    unfold removeDuplicatesAux
    by_cases hmem : r.text_id ∈ seen
    · rw [if_pos hmem]
      rcases List.mem_cons.mp hx with rfl | hx
      · exact Or.inl hmem
      · exact ih seen x hx
    · rw [if_neg hmem]
      rcases List.mem_cons.mp hx with rfl | hx
      · exact Or.inr ⟨x, List.mem_cons_self _ _, rfl⟩
      · rcases ih (r.text_id :: seen) x hx with hseen | ⟨y, hy, hid⟩
        · rcases List.mem_cons.mp hseen with heq | hseen
          · exact Or.inr ⟨r, List.mem_cons_self _ _, heq.symm⟩
          · exact Or.inl hseen
        · exact Or.inr ⟨y, List.mem_cons_of_mem _ hy, hid⟩

theorem removeDuplicatesAux_fixed (m : List Row) :
    ∀ seen : List (List Char), (∀ y ∈ m, y.text_id ∉ seen) →
      ((m.map (fun r => r.text_id)).Nodup) → removeDuplicatesAux seen m = m := by
  induction m with
  | nil => intro seen _ _; rfl
  | cons y ys ih =>
    intro seen hseen hnodup
    unfold removeDuplicatesAux
    rw [if_neg (hseen y (List.mem_cons_self _ _))]
    simp only [List.map_cons, List.nodup_cons] at hnodup
    congr 1
    refine ih _ ?_ hnodup.2
    intro z hz
    intro hc
    rcases List.mem_cons.mp hc with heq | hmem
    · exact hnodup.1 (List.mem_map.mpr ⟨z, hz, heq⟩)
    · exact hseen z (List.mem_cons_of_mem _ hz) hmem

/-! ## Claim C6: deduplication keeps the first occurrence and is idempotent -/

/-- C6.  `remove_duplicates` keeps exactly the first occurrence of each
document identifier in the concatenated keyword-then-semantic list: the
output never repeats an identifier, every retained row is the first row of
the input carrying its identifier (so keyword results take priority), every
input identifier is represented, and deduplicating an already-deduplicated
set returns it unchanged. -/
theorem C6_dedup_first_occurrence_idempotent (ks ss : List Row) :
    ((remove_duplicates ks ss).map (fun r => r.text_id)).Nodup
    ∧ (∀ y ∈ remove_duplicates ks ss, firstWithId (ks ++ ss) y.text_id = some y)
    ∧ (∀ x ∈ ks ++ ss, ∃ y ∈ remove_duplicates ks ss, y.text_id = x.text_id)
    ∧ remove_duplicates (remove_duplicates ks ss) [] = remove_duplicates ks ss := by
  refine ⟨removeDuplicatesAux_nodup _ _, ?_, ?_, ?_⟩
  · intro y hy
    exact (removeDuplicatesAux_spec (ks ++ ss) [] y hy).2
  · intro x hx
    rcases removeDuplicatesAux_covers (ks ++ ss) [] x hx with h | h
    · simp at h
    · exact h
  · show removeDuplicatesAux [] (removeDuplicatesAux [] (ks ++ ss) ++ []) = _
    rw [List.append_nil]
    exact removeDuplicatesAux_fixed _ [] (fun y _ => List.not_mem_nil _)
      (removeDuplicatesAux_nodup _ _)

/-- C6 witness: on the concrete input `[A, B] ++ [B', C]`, the retained copy
of identifier `B` is the keyword-search row, identifier `C` is represented,
and re-deduplicating the output is the identity. -/
theorem C6_dedup_witness :
    firstWithId ([rowA, rowBkw] ++ [rowB, rowC]) rowBkw.text_id = some rowBkw
    ∧ (∃ y ∈ remove_duplicates [rowA, rowBkw] [rowB, rowC], y.text_id = rowB.text_id)
    ∧ remove_duplicates (remove_duplicates [rowA, rowBkw] [rowB, rowC]) []
        = remove_duplicates [rowA, rowBkw] [rowB, rowC] :=
  ⟨(C6_dedup_first_occurrence_idempotent [rowA, rowBkw] [rowB, rowC]).2.1 rowBkw (by decide),
   (C6_dedup_first_occurrence_idempotent [rowA, rowBkw] [rowB, rowC]).2.2.1 rowB (by decide),
   (C6_dedup_first_occurrence_idempotent [rowA, rowBkw] [rowB, rowC]).2.2.2⟩

end LincolnBot

namespace LincolnBot

/-! ## Claim C4: the candidate lines submitted to the reranker -/

theorem keywordLine_ne_semanticLine (r s : Row) : keywordLine r ≠ semanticLine s := by
  intro h
  have h1 : (keywordLine r).take 1 = ['K'] := rfl
  have h2 : (semanticLine s).take 1 = ['S'] := rfl
  rw [h, h2] at h1
  simp at h1

/-- C4 counterexample.  With keyword results `[A]` and semantic matches `[B]`,
the orchestrator submits three lines: identifier `B` appears in two of them
(once in the deduplicated portion and once in the appended semantic portion),
and the retained copy of the semantic-only candidate `B` is tagged
`Keyword`, not `Semantic` — refuting both the one-to-one correspondence and
the provenance tagging. -/
theorem C4_duplicate_id_counterexample :
    all_combined_data [rowA] [rowB]
      = [keywordLine rowA, keywordLine rowB, semanticLine rowB]
    ∧ (all_combined_data [rowA] [rowB]).countP
        (fun l => containsSub l "Text ID: B".data) = 2
    ∧ (keywordLine rowB).take 8 = "Keyword|".data := by
  refine ⟨by decide, by decide, rfl⟩

/-- C4 amended.  The orchestrator does not submit one line per deduplicated
candidate: it emits one `Keyword`-tagged line for every deduplicated row
(regardless of that row's actual provenance) followed by one additional
`Semantic`-tagged line for every semantic match.  Hence every line of the
deduplicated portion is tagged `Keyword`, and every semantic match's
identifier also occurs in a distinct `Keyword`-tagged line of the
deduplicated portion. -/
theorem C4_lines_structure (ks ss : List Row) :
    (∀ r ∈ remove_duplicates ks ss,
        (keywordLine r).take 8 = "Keyword|".data
        ∧ keywordLine r ∈ all_combined_data ks ss)
    ∧ (∀ s ∈ ss, ∃ r ∈ remove_duplicates ks ss,
        r.text_id = s.text_id
        ∧ semanticLine s ∈ all_combined_data ks ss
        ∧ keywordLine r ≠ semanticLine s) := by
  constructor
  · intro r hr
    refine ⟨rfl, ?_⟩
    exact List.mem_append_left _ (List.mem_map.mpr ⟨r, hr, rfl⟩)
  · intro s hs
    have hmem : s ∈ ks ++ ss := List.mem_append_right _ hs
    rcases removeDuplicatesAux_covers (ks ++ ss) [] s hmem with h | ⟨y, hy, hid⟩
    · simp at h
    · refine ⟨y, hy, hid, ?_, keywordLine_ne_semanticLine y s⟩
      exact List.mem_append_right _ (List.mem_map.mpr ⟨s, hs, rfl⟩)

/-- C4 witness: instantiating the structure theorem on keyword results `[A]`
and semantic matches `[B]`. -/
theorem C4_lines_witness :
    ((keywordLine rowA).take 8 = "Keyword|".data
      ∧ keywordLine rowA ∈ all_combined_data [rowA] [rowB])
    ∧ ∃ r ∈ remove_duplicates [rowA] [rowB],
        r.text_id = rowB.text_id
        ∧ semanticLine rowB ∈ all_combined_data [rowA] [rowB]
        ∧ keywordLine r ≠ semanticLine rowB :=
  ⟨(C4_lines_structure [rowA] [rowB]).1 rowA (by decide),
   (C4_lines_structure [rowA] [rowB]).2 rowB (by decide)⟩

end LincolnBot

namespace LincolnBot

/-! ## Properties of the reranker adapter -/

theorem rerankAux_rank_lt (d : List (List Char × List Char)) (l : List (List Char × ℚ)) :
    ∀ i : Nat, ∀ r ∈ rerankAux d i l, i < r.rank := by
  induction l with
  | nil => intro i r hr; simp [rerankAux] at hr
  | cons p rest ih =>
    intro i r hr
    unfold rerankAux at hr
    by_cases hw : isWellFormedLine p.1
    · rw [if_pos hw] at hr
      rcases List.mem_cons.mp hr with rfl | hr
      · exact Nat.lt_succ_self i
      · exact Nat.lt_of_succ_lt (ih (i + 1) r hr)
    · rw [if_neg hw] at hr
      exact Nat.lt_of_succ_lt (ih (i + 1) r hr)

theorem rerankAux_ranks_sorted (d : List (List Char × List Char))
    (l : List (List Char × ℚ)) :
    ∀ i : Nat, ((rerankAux d i l).map (fun r => r.rank)).Pairwise (· < ·) := by
  induction l with
  | nil => intro i; simp [rerankAux]
  | cons p rest ih =>
    intro i
    unfold rerankAux
    by_cases hw : isWellFormedLine p.1
    · rw [if_pos hw]
      simp only [List.map_cons, List.pairwise_cons]
      refine ⟨?_, ih (i + 1)⟩
      intro n hn
      rcases List.mem_map.mp hn with ⟨r, hr, rfl⟩
      exact rerankAux_rank_lt d rest (i + 1) r hr
    · rw [if_neg hw]
      exact ih (i + 1)

theorem rerankAux_length_le (d : List (List Char × List Char))
    (l : List (List Char × ℚ)) :
    ∀ i : Nat, (rerankAux d i l).length ≤ l.length := by
  induction l with
  | nil => intro i; simp [rerankAux]
  | cons p rest ih =>
    intro i
    unfold rerankAux
    by_cases hw : isWellFormedLine p.1
    · rw [if_pos hw]
      simpa using Nat.succ_le_succ (ih (i + 1))
    · rw [if_neg hw]
      exact Nat.le_succ_of_le (ih (i + 1))

theorem rerankAux_all_wellformed (d : List (List Char × List Char))
    (l : List (List Char × ℚ)) :
    ∀ i : Nat, (∀ p ∈ l, isWellFormedLine p.1) →
      (rerankAux d i l).map (fun r => r.rank) = List.range' (i + 1) l.length := by
  induction l with
  | nil => intro i _; simp [rerankAux]
  | cons p rest ih =>
    intro i hall
    unfold rerankAux
    rw [if_pos (hall p (List.mem_cons_self _ _))]
    simp only [List.map_cons, List.length_cons, List.range'_succ]
    congr 1
    exact ih (i + 1) (fun q hq => hall q (List.mem_cons_of_mem _ hq))

/-- C3 counterexample.  When the reranker's second line is malformed, the
ranks of the surviving entries are `[1, 3]`: the enumerate index keeps
advancing over skipped lines, so ranks are not contiguous, refuting the
claim. -/
theorem C3_rank_gap_counterexample :
    (rerank_results [(goodLineA, 9), (badLineB, 8), (goodLineC, 7)] []).map
        (fun r => r.rank) = [1, 3]
    ∧ ¬ contiguousFrom1 [1, 3] := by
  constructor
  · with_unfolding_all decide
  · unfold contiguousFrom1
    decide

/-- C3 amended.  The `Rank` fields equal one plus the entry's index in the
reranker's returned list, so they are strictly increasing and the entries
appear in the reranker's order; the output length never exceeds the number
of returned results (hence is at most 10 whenever the reranker honours its
`top_n = 10` contract); and the ranks are contiguous from 1 exactly as
claimed whenever every returned line is well formed. -/
theorem C3_ranks_increasing_bounded (results : List (List Char × ℚ))
    (d : List (List Char × List Char)) :
    ((rerank_results results d).map (fun r => r.rank)).Pairwise (· < ·)
    ∧ (rerank_results results d).length ≤ results.length
    ∧ (results.length ≤ 10 → (rerank_results results d).length ≤ 10)
    ∧ ((∀ p ∈ results, isWellFormedLine p.1) →
        contiguousFrom1 ((rerank_results results d).map (fun r => r.rank))) := by
  refine ⟨rerankAux_ranks_sorted d results 0, rerankAux_length_le d results 0,
    fun h => le_trans (rerankAux_length_le d results 0) h, ?_⟩
  intro hall
  have h := rerankAux_all_wellformed d results 0 hall
  unfold contiguousFrom1
  rw [rerank_results] at *
  rw [h, List.length_range']

/-- C3 witness: on a concrete fully well-formed two-line response the ranks
are contiguous from 1. -/
theorem C3_ranks_witness :
    contiguousFrom1 ((rerank_results [(goodLineA, 9), (goodLineC, 7)] []).map
      (fun r => r.rank)) :=
  (C3_ranks_increasing_bounded [(goodLineA, 9), (goodLineC, 7)] []).2.2.2
    (by decide)

/-! ## Claim C7: malformed lines are skipped, the batch continues -/

theorem rerankAux_nil (d : List (List Char × List Char)) (i : Nat) :
    rerankAux d i ([] : List (List Char × ℚ)) = [] := rfl

theorem rerankAux_cons (d : List (List Char × List Char)) (i : Nat)
    (t : List Char) (sc : ℚ) (rest : List (List Char × ℚ)) :
    rerankAux d i ((t, sc) :: rest)
      = if isWellFormedLine t then parseLine d i t sc :: rerankAux d (i + 1) rest
        else rerankAux d (i + 1) rest := rfl

theorem rerankAux_append_malformed (d : List (List Char × List Char))
    (m : List Char) (s : ℚ) (hm : isWellFormedLine m = false)
    (l2 : List (List Char × ℚ)) :
    ∀ (l1 : List (List Char × ℚ)) (i : Nat),
      rerankAux d i (l1 ++ (m, s) :: l2)
        = rerankAux d i l1 ++ rerankAux d (i + l1.length + 1) l2 := by
  intro l1
  induction l1 with
  | nil =>
    intro i
    rw [List.nil_append, rerankAux_cons, if_neg (by simp [hm]), rerankAux_nil,
      List.nil_append]
    simp
  | cons p rest ih =>
    intro i
    rcases p with ⟨t, sc⟩
    rw [List.cons_append, rerankAux_cons, rerankAux_cons, ih (i + 1)]
    have heq : i + 1 + rest.length + 1 = i + ((t, sc) :: rest).length + 1 := by
      simp only [List.length_cons]
      omega
    by_cases hw : isWellFormedLine t
    · rw [if_pos hw, if_pos hw, List.cons_append, heq]
    · rw [if_neg hw, if_neg hw, heq]

/-- C7.  A reranker line splitting into fewer than 4 pipe-delimited parts is
excluded from the ranked output, while every line before and after it is
still processed and returned: the result is exactly the processed prefix
followed by the processed (index-shifted) suffix, with no abort. -/
theorem C7_malformed_line_skipped (d : List (List Char × List Char))
    (l1 l2 : List (List Char × ℚ)) (m : List Char) (s : ℚ)
    (hm : isWellFormedLine m = false) :
    rerank_results (l1 ++ (m, s) :: l2) d
      = rerankAux d 0 l1 ++ rerankAux d (l1.length + 1) l2 := by
  show rerankAux d 0 (l1 ++ (m, s) :: l2) = _
  rw [rerankAux_append_malformed d m s hm l2 l1 0]
  congr 2
  omega

/-- C7 witness: the concrete three-line batch with a malformed middle line
equals the processed first line followed by the processed third line. -/
theorem C7_malformed_witness :
    rerank_results [(goodLineA, 9), (badLineB, 8), (goodLineC, 7)] []
      = rerankAux [] 0 [(goodLineA, 9)] ++ rerankAux [] 2 [(goodLineC, 7)] :=
  C7_malformed_line_skipped [] [(goodLineA, 9)] [(goodLineC, 7)] badLineB 8
    (by decide)

end LincolnBot

namespace LincolnBot

/-! ## Properties of the dynamic weighting -/

theorem foldl_pymax_le (xs : List ℚ) :
    ∀ x : ℚ, x ≤ xs.foldl (fun a b => if a < b then b else a) x := by
  induction xs with
  | nil => intro x; exact le_refl x
  | cons b bs ih =>
    intro x
    refine le_trans ?_ (ih (if x < b then b else x))
    by_cases h : x < b
    · rw [if_pos h]; exact le_of_lt h
    · rw [if_neg h]

theorem foldl_pymax_mem (xs : List ℚ) :
    ∀ x : ℚ, xs.foldl (fun a b => if a < b then b else a) x = x
      ∨ xs.foldl (fun a b => if a < b then b else a) x ∈ xs := by
  induction xs with
  | nil => intro x; exact Or.inl rfl
  | cons b bs ih =>
    intro x
    rw [List.foldl_cons]
    rcases ih (if x < b then b else x) with heq | hmem
    · rw [heq]
      by_cases h : x < b
      · rw [if_pos h]; exact Or.inr (List.mem_cons_self _ _)
      · rw [if_neg h]; exact Or.inl rfl
    · exact Or.inr (List.mem_cons_of_mem _ hmem)

theorem foldl_pymax_ub (xs : List ℚ) :
    ∀ x y : ℚ, y ∈ xs → y ≤ xs.foldl (fun a b => if a < b then b else a) x := by
  induction xs with
  | nil => intro x y hy; simp at hy
  | cons b bs ih =>
    intro x y hy
    rw [List.foldl_cons]
    rcases List.mem_cons.mp hy with rfl | hy
    · refine le_trans ?_ (foldl_pymax_le bs (if x < y then y else x))
      by_cases h : x < y
      · rw [if_pos h]
      · rw [if_neg h]; exact le_of_not_lt h
    · exact ih _ y hy

theorem maxQ_isSome {l : List ℚ} (h : l ≠ []) : ∃ m, maxQ l = some m := by
  cases l with
  | nil => exact absurd rfl h
  | cons x xs => exact ⟨_, rfl⟩

theorem maxQ_mem {l : List ℚ} {m : ℚ} (h : maxQ l = some m) : m ∈ l := by
  cases l with
  | nil => simp [maxQ] at h
  | cons x xs =>
    have hm : m = xs.foldl (fun a b => if a < b then b else a) x := by
      simpa [maxQ] using h.symm
    rcases foldl_pymax_mem xs x with heq | hmem
    · rw [hm, heq]; exact List.mem_cons_self _ _
    · rw [hm]; exact List.mem_cons_of_mem _ hmem

theorem maxQ_ub {l : List ℚ} {m : ℚ} (h : maxQ l = some m) :
    ∀ y ∈ l, y ≤ m := by
  cases l with
  | nil => intro y hy; simp at hy
  | cons x xs =>
    have hm : m = xs.foldl (fun a b => if a < b then b else a) x := by
      simpa [maxQ] using h.symm
    intro y hy
    rcases List.mem_cons.mp hy with rfl | hy
    · rw [hm]; exact foldl_pymax_le xs y
    · rw [hm]; exact foldl_pymax_ub xs x y hy

theorem dictInsert_forall_values {κ β : Type} [DecidableEq κ] (P : β → Prop)
    {l : List (κ × β)} {k : κ} {v : β}
    (hl : ∀ p ∈ l, P p.2) (hv : P v) : ∀ p ∈ dictInsert l k v, P p.2 := by
  intro p hp
  unfold dictInsert at hp
  by_cases h : l.any (fun p => decide (p.1 = k))
  · rw [if_pos h] at hp
    rcases List.mem_map.mp hp with ⟨q, hq, rfl⟩
    by_cases hqk : q.1 = k
    · rw [if_pos hqk]; exact hv
    · rw [if_neg hqk]; exact hl q hq
  · rw [if_neg h] at hp
    rcases List.mem_append.mp hp with hp | hp
    · exact hl p hp
    · rcases List.mem_singleton.mp hp with rfl
      exact hv

theorem foldl_dictInsert_forall {κ β : Type} [DecidableEq κ] (P : β → Prop)
    (g : κ × β → κ) (h : κ × β → β) :
    ∀ (l acc : List (κ × β)), (∀ p ∈ acc, P p.2) → (∀ t ∈ l, P (h t)) →
      ∀ p ∈ l.foldl (fun d t => dictInsert d (g t) (h t)) acc, P p.2 := by
  intro l
  induction l with
  | nil => intro acc hacc _ p hp; exact hacc p hp
  | cons t ts ih =>
    intro acc hacc hall p hp
    exact ih _ (dictInsert_forall_values P hacc (hall t (List.mem_cons_self _ _)))
      (fun q hq => hall q (List.mem_cons_of_mem _ hq)) p hp

theorem relative_frequencies_values (terms : List (List Char × ℚ)) :
    ∀ p ∈ relative_frequencies terms,
      ∃ t ∈ terms, p.2 = t.2 / (terms.map (fun t => t.2)).sum := by
  have := foldl_dictInsert_forall
    (fun v => ∃ t ∈ terms, v = t.2 / (terms.map (fun t => t.2)).sum)
    (fun t => lowerStr t.1) (fun t => t.2 / (terms.map (fun t => t.2)).sum)
    terms [] (by simp) (fun t ht => ⟨t, ht, rfl⟩)
  intro p hp
  refine this p ?_
  simpa [relative_frequencies] using hp

theorem effectiveRelFreq_pos (terms : List (List Char × ℚ))
    (hpos : ∀ t ∈ terms, 0 < t.2) (kw : List Char) :
    0 < effectiveRelFreq terms kw := by
  unfold effectiveRelFreq lookupD
  cases hfind : (relative_frequencies terms).find? (fun p => decide (p.1 = lowerStr kw)) with
  | none => norm_num
  | some p =>
    show 0 < p.2
    have hp : p ∈ relative_frequencies terms := List.mem_of_find?_eq_some hfind
    rcases relative_frequencies_values terms p hp with ⟨t, ht, hval⟩
    have htotal : 0 < (terms.map (fun t => t.2)).sum := by
      refine List.sum_pos _ ?_ ?_
      · intro x hx
        rcases List.mem_map.mp hx with ⟨u, hu, rfl⟩
        exact hpos u hu
      · exact fun hnil => by simp [List.map_eq_nil_iff.mp hnil] at ht
    rw [hval]
    exact div_pos (hpos t ht) htotal

/-! ## Claim C5: dynamic weights lie in (0, 10], minimum frequency gets 10 -/

/-- C5.  For every non-empty keyword profile over a corpus term table with
positive raw frequencies, the weighting succeeds and: every dynamic weight
lies in `(0, 10]`; every profile keyword whose effective corpus relative
frequency (unseen keywords count as frequency 1) is minimal receives weight
exactly 10; and a keyword absent from the corpus table gets inverse weight
exactly 1. -/
theorem C5_dynamic_weights_bounded_max10 (uk terms : List (List Char × ℚ))
    (hne : uk ≠ []) (hpos : ∀ t ∈ terms, 0 < t.2) :
    ∃ dyn, normalized_weights uk terms = some dyn
      ∧ (∀ p ∈ dyn, 0 < p.2 ∧ p.2 ≤ 10)
      ∧ (∀ u ∈ uk,
          (∀ v ∈ uk, effectiveRelFreq terms u.1 ≤ effectiveRelFreq terms v.1) →
          (u.1, (10:ℚ)) ∈ dyn)
      ∧ (∀ u ∈ uk,
          (relative_frequencies terms).find? (fun p => decide (p.1 = lowerStr u.1)) = none →
          (u.1, (1:ℚ)) ∈ inverse_weights uk terms) := by
  have hvalsne : (inverse_weights uk terms).map (fun p => p.2) ≠ [] := by
    intro h
    exact hne (by
      have := List.map_eq_nil_iff.mp h
      exact List.map_eq_nil_iff.mp this)
  obtain ⟨m, hm⟩ := maxQ_isSome hvalsne
  have hmmem := maxQ_mem hm
  have hmub := maxQ_ub hm
  have heffpos : ∀ kw : List Char, 0 < effectiveRelFreq terms kw :=
    effectiveRelFreq_pos terms hpos
  have hinvpos : ∀ q ∈ inverse_weights uk terms, 0 < q.2 := by
    intro q hq
    rcases List.mem_map.mp hq with ⟨u, hu, rfl⟩
    exact one_div_pos.mpr (heffpos u.1)
  have hmpos : 0 < m := by
    rcases List.mem_map.mp hmmem with ⟨q, hq, rfl⟩
    exact hinvpos q hq
  refine ⟨(inverse_weights uk terms).map (fun p => (p.1, p.2 / m * 10)), ?_, ?_, ?_, ?_⟩
  · unfold normalized_weights
    rw [hm]
  · intro p hp
    rcases List.mem_map.mp hp with ⟨q, hq, rfl⟩
    have hqpos := hinvpos q hq
    have hqle : q.2 ≤ m := hmub _ (List.mem_map.mpr ⟨q, hq, rfl⟩)
    constructor
    · exact mul_pos (div_pos hqpos hmpos) (by norm_num)
    · calc q.2 / m * 10 ≤ 1 * 10 :=
            mul_le_mul_of_nonneg_right ((div_le_one hmpos).mpr hqle) (by norm_num)
      _ = 10 := one_mul 10
  · intro u hu humin
    have hwub : ∀ y ∈ (inverse_weights uk terms).map (fun p => p.2),
        y ≤ 1 / effectiveRelFreq terms u.1 := by
      intro y hy
      rcases List.mem_map.mp hy with ⟨q, hq, rfl⟩
      rcases List.mem_map.mp hq with ⟨v, hv, rfl⟩
      exact one_div_le_one_div_of_le (heffpos u.1) (humin v hv)
    have hwmem : (1 : ℚ) / effectiveRelFreq terms u.1
        ∈ (inverse_weights uk terms).map (fun p => p.2) := by
      refine List.mem_map.mpr ⟨(u.1, 1 / effectiveRelFreq terms u.1), ?_, rfl⟩
      exact List.mem_map.mpr ⟨u, hu, rfl⟩
    have hmeq : m = 1 / effectiveRelFreq terms u.1 :=
      le_antisymm (hwub m hmmem) (hmub _ hwmem)
    refine List.mem_map.mpr ⟨(u.1, 1 / effectiveRelFreq terms u.1),
      List.mem_map.mpr ⟨u, hu, rfl⟩, ?_⟩
    have : (1 / effectiveRelFreq terms u.1) / m * 10 = 10 := by
      rw [← hmeq, div_self (ne_of_gt hmpos), one_mul]
    rw [this]
  · intro u hu hfind
    refine List.mem_map.mpr ⟨u, hu, ?_⟩
    have : effectiveRelFreq terms u.1 = 1 := by
      unfold effectiveRelFreq lookupD
      rw [hfind]
    rw [this, one_div_one]

/-- C5 witness: on a concrete two-term table (`rare`: 1, `common`: 9) and a
three-keyword profile including an unseen keyword, the weighting succeeds
with all the guaranteed properties; the rarest keyword gets weight 10. -/
theorem C5_weights_witness :
    ∃ dyn, normalized_weights profileW termsW = some dyn
      ∧ (∀ p ∈ dyn, 0 < p.2 ∧ p.2 ≤ 10)
      ∧ (∀ u ∈ profileW,
          (∀ v ∈ profileW, effectiveRelFreq termsW u.1 ≤ effectiveRelFreq termsW v.1) →
          (u.1, (10:ℚ)) ∈ dyn)
      ∧ (∀ u ∈ profileW,
          (relative_frequencies termsW).find? (fun p => decide (p.1 = lowerStr u.1)) = none →
          (u.1, (1:ℚ)) ∈ inverse_weights profileW termsW) :=
  C5_dynamic_weights_bounded_max10 profileW termsW (by decide)
    (by with_unfolding_all decide)

end LincolnBot

namespace LincolnBot

/-! ## Properties of the position table and Python max -/

theorem finditerAux_lb (kw text : List Char) :
    ∀ (fuel i : Nat), ∀ x ∈ finditerAux kw text fuel i, i ≤ x := by
  intro fuel
  induction fuel with
  | zero => intro i x hx; simp [finditerAux] at hx
  | succ fuel ih =>
    intro i x hx
    unfold finditerAux at hx
    by_cases hlen : text.length < i
    · rw [if_pos hlen] at hx; simp at hx
    · rw [if_neg hlen] at hx
      by_cases hmatch : matchAt kw text i
      · rw [if_pos hmatch] at hx
        rcases List.mem_cons.mp hx with rfl | hx
        · exact le_refl x
        · have := ih _ x hx
          omega
      · rw [if_neg hmatch] at hx
        have := ih _ x hx
        omega

theorem finditerAux_sorted (kw text : List Char) :
    ∀ (fuel i : Nat), List.Pairwise (· < ·) (finditerAux kw text fuel i) := by
  intro fuel
  induction fuel with
  | zero => intro i; simp [finditerAux]
  | succ fuel ih =>
    intro i
    unfold finditerAux
    by_cases hlen : text.length < i
    · rw [if_pos hlen]; exact List.Pairwise.nil
    · rw [if_neg hlen]
      by_cases hmatch : matchAt kw text i
      · rw [if_pos hmatch]
        refine List.pairwise_cons.mpr ⟨?_, ih _⟩
        intro x hx
        have := finditerAux_lb kw text fuel _ x hx
        omega
      · rw [if_neg hmatch]; exact ih _

theorem finditerPos_nodup (kw text : List Char) : (finditerPos kw text).Nodup :=
  (finditerAux_sorted kw text _ 0).nodup

theorem dictInsert_not_mem_key {β : Type} (l : List (Nat × β)) (k : Nat) (v : β)
    (h : k ∉ l.map (fun p => p.1)) : dictInsert l k v = l ++ [(k, v)] := by
  unfold dictInsert
  rw [if_neg]
  intro hc
  rcases List.any_eq_true.mp hc with ⟨p, hp, hpk⟩
  exact h (List.mem_map.mpr ⟨p, hp, of_decide_eq_true hpk⟩)

theorem foldl_positions_append (v : List Char × ℚ) (f : KAcc → Nat → KAcc)
    (hf : ∀ (a : KAcc) (i : Nat), (f a i).positions = dictInsert a.positions i v) :
    ∀ (ms : List Nat) (a : KAcc), ms.Nodup →
      (∀ i ∈ ms, i ∉ a.positions.map (fun p => p.1)) →
      (ms.foldl f a).positions = a.positions ++ ms.map (fun i => (i, v)) := by
  intro ms
  induction ms with
  | nil => intro a _ _; simp
  | cons i is ih =>
    intro a hnodup hdisj
    rw [List.foldl_cons]
    have hnd := List.nodup_cons.mp hnodup
    have hpos : (f a i).positions = a.positions ++ [(i, v)] := by
      rw [hf a i, dictInsert_not_mem_key _ _ _ (hdisj i (List.mem_cons_self _ _))]
    have hdisj' : ∀ j ∈ is, j ∉ (f a i).positions.map (fun p => p.1) := by
      intro j hj
      rw [hpos]
      simp only [List.map_append, List.mem_append]
      rintro (hc | hc)
      · exact hdisj j (List.mem_cons_of_mem _ hj) hc
      · have : j = i := by simpa using hc
        exact hnd.1 (this ▸ hj)
    rw [ih (f a i) hnd.2 hdisj', hpos, List.append_assoc]
    simp

theorem concatBlocks_cons (combined : List Char) (p : List Char × ℚ)
    (G : List (List Char × ℚ)) :
    concatBlocks combined (p :: G) = blockOf combined p ++ concatBlocks combined G := by
  unfold concatBlocks
  simp [List.flatMap_cons]


theorem scanStep_unfold (dyn : List (List Char × ℚ)) (combined : List Char)
    (acc : KAcc) (p : List Char × ℚ) :
    scanStep dyn combined acc p
      = (finditerPos (lowerStr p.1) combined).foldl (fun a i =>
          if 0 < (finditerPos (lowerStr p.1) combined).length then
            { score := a.score + ((finditerPos (lowerStr p.1) combined).length : ℚ)
                * lookupD dyn p.1 0,
              counts := dictInsert a.counts p.1 (finditerPos (lowerStr p.1) combined).length,
              positions := dictInsert a.positions i (p.1, p.2) }
          else a) acc := rfl

theorem scanStep_positions (dyn : List (List Char × ℚ)) (combined : List Char)
    (acc : KAcc) (p : List Char × ℚ)
    (hdisj : ∀ i ∈ finditerPos (lowerStr p.1) combined,
      i ∉ acc.positions.map (fun r => r.1)) :
    (scanStep dyn combined acc p).positions = acc.positions ++ blockOf combined p := by
  rw [scanStep_unfold]
  by_cases hms : finditerPos (lowerStr p.1) combined = []
  · rw [hms]
    unfold blockOf
    rw [hms]
    simp
  · have hcount : 0 < (finditerPos (lowerStr p.1) combined).length :=
      List.length_pos.mpr hms
    unfold blockOf
    refine foldl_positions_append (p.1, p.2) _ ?_ _ _ (finditerPos_nodup _ _) hdisj
    intro a i
    rw [if_pos hcount]

theorem scanFold_positions (dyn : List (List Char × ℚ)) (combined : List Char) :
    ∀ (orig : List (List Char × ℚ)) (acc : KAcc),
      List.Pairwise (fun p q => ∀ x ∈ finditerPos (lowerStr p.1) combined,
        x ∉ finditerPos (lowerStr q.1) combined) orig →
      (∀ p ∈ orig, ∀ i ∈ finditerPos (lowerStr p.1) combined,
        i ∉ acc.positions.map (fun r => r.1)) →
      (orig.foldl (scanStep dyn combined) acc).positions
        = acc.positions ++ concatBlocks combined orig := by
  intro orig
  induction orig with
  | nil =>
    intro acc _ _
    simp [concatBlocks]
  | cons p ps ih =>
    intro acc hpair hdisj
    rw [List.foldl_cons, concatBlocks_cons]
    have hpairhead := (List.pairwise_cons.mp hpair).1
    have hpairtail := (List.pairwise_cons.mp hpair).2
    have hstep := scanStep_positions dyn combined acc p
      (hdisj p (List.mem_cons_self _ _))
    have hkeys : (blockOf combined p).map (fun r => r.1)
        = finditerPos (lowerStr p.1) combined := by
      unfold blockOf
      rw [List.map_map]
      have hcomp : ((fun r : Nat × (List Char × ℚ) => r.1) ∘ fun i : Nat => (i, p))
          = @id Nat := rfl
      rw [hcomp, List.map_id]
    have hdisj' : ∀ q ∈ ps, ∀ i ∈ finditerPos (lowerStr q.1) combined,
        i ∉ (scanStep dyn combined acc p).positions.map (fun r => r.1) := by
      intro q hq i hi
      rw [hstep]
      simp only [List.map_append, List.mem_append]
      rintro (hc | hc)
      · exact hdisj q (List.mem_cons_of_mem _ hq) i hi hc
      · rw [hkeys] at hc
        exact hpairhead q hq i hc hi
    rw [ih (scanStep dyn combined acc p) hpairtail hdisj', hstep, List.append_assoc]

theorem scanKeywords_positions (dyn orig : List (List Char × ℚ)) (combined : List Char)
    (hpair : List.Pairwise (fun p q => ∀ x ∈ finditerPos (lowerStr p.1) combined,
      x ∉ finditerPos (lowerStr q.1) combined) orig) :
    (scanKeywords dyn orig combined).positions = concatBlocks combined orig := by
  unfold scanKeywords
  rw [scanFold_positions dyn combined orig { score := 0, counts := [], positions := [] }
    hpair (by intro p hp i hi; simp)]
  rfl

theorem concatBlocks_matched (combined : List Char) :
    ∀ G : List (List Char × ℚ),
      concatBlocks combined G = concatBlocks combined (matchedKeywords G combined) := by
  intro G
  induction G with
  | nil => rfl
  | cons p ps ih =>
    rw [concatBlocks_cons]
    by_cases h : finditerPos (lowerStr p.1) combined = []
    · have hb : blockOf combined p = [] := by
        unfold blockOf
        rw [h]
        rfl
      have hm : matchedKeywords (p :: ps) combined = matchedKeywords ps combined := by
        unfold matchedKeywords
        rw [List.filter_cons]
        have hempty : (!(finditerPos (lowerStr p.1) combined).isEmpty) = false := by
          rw [h]; rfl
        rw [hempty]
        simp
      rw [hb, hm, List.nil_append, ih]
    · have hm : matchedKeywords (p :: ps) combined
          = p :: matchedKeywords ps combined := by
        unfold matchedKeywords
        rw [List.filter_cons]
        have hnonempty : (!(finditerPos (lowerStr p.1) combined).isEmpty) = true := by
          cases hms : finditerPos (lowerStr p.1) combined with
          | nil => exact absurd hms h
          | cons a l => rfl
        rw [hnonempty]
        simp
      rw [hm, concatBlocks_cons, ih]

theorem foldl_pmStep_const {α : Type} (f : α → ℚ) (w : ℚ) :
    ∀ (b : List α) (a : α), (∀ y ∈ b, f y = w) →
      b.foldl (pmStep f) a = if f a < w then b.headD a else a := by
  intro b
  induction b with
  | nil =>
    intro a _
    by_cases h : f a < w <;> simp [h]
  | cons y ys ih =>
    intro a hconst
    rw [List.foldl_cons]
    have hy : f y = w := hconst y (List.mem_cons_self _ _)
    have hys : ∀ z ∈ ys, f z = w := fun z hz => hconst z (List.mem_cons_of_mem _ hz)
    by_cases h : f a < f y
    · have hstep : pmStep f a y = y := by
        unfold pmStep
        rw [if_pos h]
      rw [hstep, ih y hys, hy, if_neg (lt_irrefl w)]
      have h' : f a < w := hy ▸ h
      rw [if_pos h']
      rfl
    · have hstep : pmStep f a y = a := by
        unfold pmStep
        rw [if_neg h]
      rw [hstep, ih a hys]
      have h' : ¬ f a < w := by rw [← hy]; exact h
      rw [if_neg h', if_neg h']

theorem foldl_pmStep_blocks (combined : List Char) :
    ∀ (G : List (List Char × ℚ)) (a : Nat × (List Char × ℚ)),
      (∀ p ∈ G, finditerPos (lowerStr p.1) combined ≠ []) →
      (concatBlocks combined G).foldl (pmStep (fun q => q.2.2)) a
        = (G.map (earliestRecord combined)).foldl (pmStep (fun q => q.2.2)) a := by
  intro G
  induction G with
  | nil => intro a _; rfl
  | cons p ps ih =>
    intro a hne
    rw [concatBlocks_cons, List.foldl_append, List.map_cons, List.foldl_cons]
    have hconst : ∀ y ∈ blockOf combined p,
        (fun q : Nat × (List Char × ℚ) => q.2.2) y = p.2 := by
      intro y hy
      rcases List.mem_map.mp hy with ⟨i, hi, rfl⟩
      rfl
    rw [foldl_pmStep_const _ p.2 (blockOf combined p) a hconst]
    obtain ⟨i, tl, hms⟩ : ∃ i tl, finditerPos (lowerStr p.1) combined = i :: tl := by
      cases hms : finditerPos (lowerStr p.1) combined with
      | nil => exact absurd hms (hne p (List.mem_cons_self _ _))
      | cons i tl => exact ⟨i, tl, rfl⟩
    have hhead : (blockOf combined p).headD a = earliestRecord combined p := by
      unfold blockOf earliestRecord
      rw [hms]
      rfl
    rw [hhead]
    have hsw : (if (fun q : Nat × (List Char × ℚ) => q.2.2) a < p.2
          then earliestRecord combined p else a)
        = pmStep (fun q : Nat × (List Char × ℚ) => q.2.2) a (earliestRecord combined p) := by
      unfold pmStep earliestRecord
      rfl
    rw [hsw, ih _ (fun q hq => hne q (List.mem_cons_of_mem _ hq))]

theorem foldl_pmStep_map_earliest (combined : List Char) :
    ∀ (G : List (List Char × ℚ)) (q : List Char × ℚ),
      (G.map (earliestRecord combined)).foldl (pmStep (fun r => r.2.2))
          (earliestRecord combined q)
        = earliestRecord combined (G.foldl (pmStep (fun p => p.2)) q) := by
  intro G
  induction G with
  | nil => intro q; rfl
  | cons p ps ih =>
    intro q
    rw [List.map_cons, List.foldl_cons, List.foldl_cons]
    have hstep : pmStep (fun r : Nat × (List Char × ℚ) => r.2.2)
          (earliestRecord combined q) (earliestRecord combined p)
        = earliestRecord combined (pmStep (fun p : List Char × ℚ => p.2) q p) := by
      unfold pmStep
      rw [apply_ite (earliestRecord combined)]
      rfl
    rw [hstep, ih]

theorem pyMax_concatBlocks (combined : List Char) :
    ∀ G : List (List Char × ℚ),
      (∀ p ∈ G, finditerPos (lowerStr p.1) combined ≠ []) →
      pyMax (fun q => q.2.2) (concatBlocks combined G)
        = (pyMax (fun p => p.2) G).map (earliestRecord combined) := by
  intro G hne
  cases G with
  | nil => rfl
  | cons p ps =>
    obtain ⟨i, tl, hms⟩ : ∃ i tl, finditerPos (lowerStr p.1) combined = i :: tl := by
      cases hms : finditerPos (lowerStr p.1) combined with
      | nil => exact absurd hms (hne p (List.mem_cons_self _ _))
      | cons i tl => exact ⟨i, tl, rfl⟩
    have hblock : blockOf combined p
        = (i, (p.1, p.2)) :: tl.map (fun j => (j, (p.1, p.2))) := by
      unfold blockOf
      rw [hms]
      rfl
    have hconcat : concatBlocks combined (p :: ps)
        = (i, (p.1, p.2)) :: (tl.map (fun j => (j, (p.1, p.2)))
            ++ concatBlocks combined ps) := by
      rw [concatBlocks_cons, hblock]
      rfl
    rw [hconcat]
    show some ((tl.map (fun j => (j, (p.1, p.2))) ++ concatBlocks combined ps).foldl
        (pmStep (fun q => q.2.2)) (i, (p.1, p.2))) = _
    rw [List.foldl_append]
    have hconst : ∀ y ∈ tl.map (fun j => (j, (p.1, p.2))),
        (fun q : Nat × (List Char × ℚ) => q.2.2) y = p.2 := by
      intro y hy
      rcases List.mem_map.mp hy with ⟨j, hj, rfl⟩
      rfl
    rw [foldl_pmStep_const _ p.2 _ _ hconst, if_neg (lt_irrefl p.2),
      foldl_pmStep_blocks combined ps _ (fun q hq => hne q (List.mem_cons_of_mem _ hq))]
    have hi : ((i, (p.1, p.2)) : Nat × (List Char × ℚ)) = earliestRecord combined p := by
      unfold earliestRecord
      rw [hms]
      rfl
    rw [hi, foldl_pmStep_map_earliest]
    rfl

end LincolnBot

namespace LincolnBot

/-! ## Claim C10: which occurrence the snippet is centred on -/

/-- C10 amended.  The snippet centre is the first position in the recorded
table whose stored (keyword, weight) entry attains the maximal weight —
where a later keyword matching at the same character offset overwrites the
stored entry while keeping the position's recording slot.  Whenever no two
profile keywords match at the same character offset (the hypothesis below),
this coincides with the claim's description: the chosen record is the
earliest match position, in text order, of the first keyword in profile
iteration order (`pyMax` keeps the first maximum) that attains the maximal
original weight among the matched keywords. -/
theorem C10_tiebreak_no_collision (dyn orig : List (List Char × ℚ))
    (combined : List Char)
    (hdisj : List.Pairwise (fun p q => ∀ x ∈ finditerPos (lowerStr p.1) combined,
      x ∉ finditerPos (lowerStr q.1) combined) orig) :
    pyMax (fun q => q.2.2) ((scanKeywords dyn orig combined).positions)
      = (pyMax (fun p => p.2) (matchedKeywords orig combined)).map
          (earliestRecord combined) := by
  rw [scanKeywords_positions dyn orig combined hdisj, concatBlocks_matched]
  refine pyMax_concatBlocks combined _ ?_
  intro p hp
  have hfilter := List.of_mem_filter hp
  intro hnil
  rw [hnil] at hfilter
  simp at hfilter

/-- C10 witness: on the two-keyword profile `emancipation`/`now` over the
emancipation document the keywords match at disjoint offsets, and the code's
snippet centre equals the specification's tie-break selection. -/
theorem C10_tiebreak_witness :
    pyMax (fun q => q.2.2) ((scanKeywords profileEmanNow profileEmanNow
        (combinedText entryEmancipation)).positions)
      = (pyMax (fun p => p.2) (matchedKeywords profileEmanNow
          (combinedText entryEmancipation))).map
          (earliestRecord (combinedText entryEmancipation)) :=
  C10_tiebreak_no_collision profileEmanNow profileEmanNow
    (combinedText entryEmancipation) (by with_unfolding_all decide)

/-- C10 counterexample.  In `entryC10` the keywords `x-ray` (weight 5) and
`x` (weight 3) both match at offset 0, so the later keyword overwrites the
stored entry at that offset; `max` then selects offset 6 (`zeb`, weight 5)
even though the claim prescribes offset 0, the earliest match of `x-ray`,
the first maximal-weight keyword in profile order.  The extracted quote is
the full 301-character body (centre 6) instead of the 300-character window
the claim's centre 0 would produce. -/
theorem C10_overwrite_counterexample :
    pyMax (fun q => q.2.2) ((scanKeywords owC10 owC10 (combinedText entryC10)).positions)
        = some (6, ("zeb".data, 5))
    ∧ (pyMax (fun p => p.2) (matchedKeywords owC10 (combinedText entryC10))).map
        (earliestRecord (combinedText entryC10))
        = some (0, ("x-ray".data, 5))
    ∧ (find_instances_expanded_search owC10 owC10 [entryC10] [] [] 5).map
        (fun r => r.quote) = [bodyC10]
    ∧ bodyC10 ≠ snippetAt bodyC10 0 := by
  refine ⟨by with_unfolding_all decide, by with_unfolding_all decide,
    by with_unfolding_all decide, by decide⟩

end LincolnBot
